import Mathlib

/-!
Verification of `whatsapp_archive.py`: a shallow embedding of the program's
line parser, message reassembler, grouper and attachment normalizer, with
theorems checking the natural-language specification against the code.

Strings are modelled as `List Char`.  Python's `re` matching of the two
fixed patterns is hand-compiled into executable Lean functions that follow
Python's leftmost / greedy / lazy backtracking semantics for exactly those
patterns.  `dateutil.parser.parse` (an external library) is modelled by a
validating date/time parser for the token shapes producible by the
patterns; the theorems rely only on its success/failure behaviour on
clearly valid and clearly invalid inputs.
-/

set_option maxHeartbeats 1000000

/-- Whitespace characters removed by Python's `str.strip()` (ASCII part;
the Unicode whitespace cases are irrelevant to the inputs considered). -/
def isPyWs (c : Char) : Bool :=
  c = ' ' || c = '\t' || c = '\n' || c = '\r' || c = '\x0b' || c = '\x0c'

/-- Python `line.strip()`: removes leading and trailing whitespace
(used on continuation lines in `IdentifyMessages`, line 96). -/
def pyStrip (l : List Char) : List Char :=
  ((l.dropWhile isPyWs).reverse.dropWhile isPyWs).reverse

/-- Modelled from the spec: `line.trimmedOfTrailingWhitespace`, the
trailing-only trim the spec's reassembly step describes.  Declared only to
be compared against the source's `strip()` (which also trims leading
whitespace). -/
def trimTrailingWs (l : List Char) : List Char :=
  (l.reverse.dropWhile isPyWs).reverse

/-- Python `s.split(sep)` for a single-character separator: always returns
at least one (possibly empty) component. -/
def splitOnChar (sep : Char) : List Char → List (List Char)
  | [] => [[]]
  | c :: rest =>
    match splitOnChar sep rest with
    | [] => [[]]
    | h :: t => if c = sep then [] :: h :: t else (c :: h) :: t

/-- Last element of a list of components (`[-1]` in Python); the default
is never used because `splitOnChar` returns a non-empty list. -/
def lastOr (d : List Char) : List (List Char) → List Char
  | [] => d
  | [x] => x
  | _ :: x :: xs => lastOr d (x :: xs)

/-- The literal prefix of the attachment-marker pattern
`(<attached: (.+?)>)` in `replace_attachment` (line 37). -/
def attStart : List Char := "<attached: ".toList

/-- The full marker text matched by the pattern: this is `group(1)` of the
match, reconstructed from the filename `group(2)`. -/
def markerOf (fn : List Char) : List Char := attStart ++ fn ++ ['>']

/-- The `(.+?)>` tail of the marker pattern after its first (mandatory)
filename character: scans for the first `>`; `.` does not match a newline,
so an intervening newline kills the match. -/
def findClose : List Char → Option (List Char × List Char)
  | [] => none
  | c :: rest =>
    if c = '>' then some ([], rest)
    else if c = '\n' then none
    else
      match findClose rest with
      | some (fn, post) => some (c :: fn, post)
      | none => none

/-- Boolean prefix test on char lists (Python regex literal matching). -/
def isPre : List Char → List Char → Bool
  | [], _ => true
  | _ :: _, [] => false
  | a :: as, b :: bs => a = b && isPre as bs

/-- Anchored match of `(<attached: (.+?)>)` at the start of `s`: the lazy
`.+?` takes one mandatory non-newline character and then the shortest
continuation up to the first `>`.  Returns `(filename, rest)`. -/
def matchAt (s : List Char) : Option (List Char × List Char) :=
  if isPre attStart s then
    match s.drop attStart.length with
    | [] => none
    | c :: rest =>
      if c = '\n' then none
      else (findClose rest).map (fun p => (c :: p.1, p.2))
  else none

/-- `re.search('(<attached: (.+?)>)', body)`: leftmost match; returns the
text before the match, the filename, and the text after the match. -/
def findAttachment : List Char → Option (List Char × List Char × List Char)
  | [] => none
  | c :: rest =>
    match matchAt (c :: rest) with
    | some (fn, post) => some ([], fn, post)
    | none => (findAttachment rest).map (fun p => (c :: p.1, p.2.1, p.2.2))

/-- The replacement HTML computed for a marker's filename in
`replace_attachment` (lines 39-48): dispatch on the extension, the text
after the last `.` of the filename. -/
def attachmentHtml (file : List Char) : List Char :=
  let ext := lastOr file (splitOnChar '.' file)
  if ext = "jpg".toList || ext = "png".toList || ext = "jpeg".toList then
    "<a target=\"_blank\" href=\"".toList ++ file ++
      "\"><img width=\"128\" height=\"128\" src=\"".toList ++ file ++
      "\" /></a><br>".toList
  else if ext = "opus".toList then
    "<audio controls src=\"".toList ++ file ++ "\" /><br>".toList
  else if ext = "mp4".toList then
    "<video controls src=\"".toList ++ file ++ "\" /><br>".toList
  else
    "<a target=\"_blank\" href=\"".toList ++ file ++ "\" />".toList ++
      file ++ "</a>".toList

/-- Fuelled core of Python `str.replace` (all non-overlapping occurrences,
left to right).  The fuel only serves termination; `pyReplace` supplies
enough fuel that the zero-fuel case is never reached. -/
def pyReplaceAux : Nat → List Char → List Char → List Char → List Char
  | 0, s, _, _ => s
  | _ + 1, s, [], _ => s
  | fuel + 1, c :: rest, o :: old, new =>
    if isPre (o :: old) (c :: rest) then
      new ++ pyReplaceAux fuel ((c :: rest).drop (o :: old).length) (o :: old) new
    else
      c :: pyReplaceAux fuel rest (o :: old) new
  | _ + 1, [], _ :: _, _ => []

/-- Python `body.replace(old, new)`; `old` is never empty at the single
call site (a marker has at least 12 characters). -/
def pyReplace (s old new : List Char) : List Char :=
  pyReplaceAux (s.length + 1) s old new

/-- `replace_attachment` (lines 36-50): find the first attachment marker;
if found, replace every occurrence of the matched marker string with the
extension-dispatched HTML. -/
def replace_attachment (body : List Char) : List Char :=
  match findAttachment body with
  | none => body
  | some (_, file, _) => pyReplace body (markerOf file) (attachmentHtml file)

/-- Characters of the `DATE_RE` class `[\d/\-.]`. -/
def dateChar (c : Char) : Bool := c.isDigit || c = '/' || c = '-' || c = '.'

/-- Characters of the `TIME_RE` core class `[\d:]`. -/
def timeChar (c : Char) : Bool := c.isDigit || c = ':'

/-- The `(?P<body>.*$)` tail: `.` excludes newlines and `$` matches at the
end of the string or just before one final newline, so the suffix matches
iff its only newline (if any) is a single trailing one, which is not
captured. -/
def bodyMatch (s : List Char) : Option (List Char) :=
  if s.contains '\n' then
    match s.reverse with
    | '\n' :: r => if r.reverse.contains '\n' then none else some r.reverse
    | _ => none
  else some s

/-- The `(?P<name>[^:]+?): ` part of `WHATSAPP_RE` followed by the body:
the lazy name is forced to be exactly the (non-empty) text before the
first colon, which must be followed by a space. -/
def nameBodySplit (s : List Char) : Option (List Char × List Char) :=
  let name := s.takeWhile (fun c => c != ':')
  match s.dropWhile (fun c => c != ':') with
  | ':' :: ' ' :: r2 =>
    if name = [] then none else (bodyMatch r2).map (fun b => (name, b))
  | _ => none

/-- The separator alternation `( - |: | )`, alternatives tried in pattern
order with fall-through on failure of the continuation `k`. -/
def trySeps {α : Type} (s : List Char) (k : List Char → Option α) : Option α :=
  (match s with
   | ' ' :: '-' :: ' ' :: r => k r
   | _ => none) <|>
  (match s with
   | ':' :: ' ' :: r => k r
   | _ => none) <|>
  (match s with
   | ' ' :: r => k r
   | _ => none)

/-- The `\]?` after the time: a present `]` must be consumed, because no
separator alternative starts with `]`. -/
def afterBr {α : Type} (s : List Char) (k : List Char → Option α) : Option α :=
  match s with
  | ']' :: r => trySeps r k
  | _ => trySeps s k

/-- The optional greedy `( [AP]M)?` closing the time group (tried with the
suffix first, as Python does), then `\]?` and the separator.  Returns the
full text of the time group together with the continuation's result. -/
def tryTimeTail {α : Type} (timeCore rest : List Char) (k : List Char → Option α) :
    Option (List Char × α) :=
  (match rest with
   | ' ' :: 'A' :: 'M' :: r =>
     (afterBr r k).map (fun x => (timeCore ++ [' ', 'A', 'M'], x))
   | ' ' :: 'P' :: 'M' :: r =>
     (afterBr r k).map (fun x => (timeCore ++ [' ', 'P', 'M'], x))
   | _ => none) <|>
  (afterBr rest k).map (fun x => (timeCore, x))

/-- Greedy backtracking over the length of the `[\d:]+` time core: `T` is
the maximal run of time characters, and Python retries with ever shorter
non-empty prefixes of it. -/
def tryTimeLen {α : Type} (T tail : List Char) (k : List Char → Option α) :
    Nat → Option (List Char × α)
  | 0 => none
  | j + 1 =>
    tryTimeTail (T.take (j + 1)) (T.drop (j + 1) ++ tail) k <|> tryTimeLen T tail k j

/-- The common `\[?DATE,? TIME\]?SEPARATOR` prefix of both patterns
(`DATETIME_RE` + `SEPARATOR_RE`), anchored at the start of the line as
`re.match` does.  The optional `[` and `,` and the maximal `DATE` run are
forced (no date character equals `,`, a space, or `[`), while the time
group genuinely backtracks.  `k` consumes the text after the separator.
Returns the date text, the time text and `k`'s result. -/
def matchDateTime {α : Type} (line : List Char) (k : List Char → Option α) :
    Option (List Char × List Char × α) :=
  let s1 := match line with
    | '[' :: r => r
    | _ => line
  let date := s1.takeWhile dateChar
  if date = [] then none
  else
    let s2 := s1.dropWhile dateChar
    let s2' := match s2 with
      | ',' :: r => r
      | _ => s2
    match s2' with
    | ' ' :: s3 =>
      let T := s3.takeWhile timeChar
      if T = [] then none
      else
        (tryTimeLen T (s3.dropWhile timeChar) k T.length).map
          (fun p => (date, p.1, p.2))
    | _ => none

/-- `re.match(WHATSAPP_RE, line)`: date, time, name and body groups. -/
def whatsappMatch (line : List Char) :
    Option (List Char × List Char × List Char × List Char) :=
  (matchDateTime line nameBodySplit).map (fun p => (p.1, p.2.1, p.2.2.1, p.2.2.2))

/-- `re.match(FIRSTLINE_RE, line)`: date, time and body groups. -/
def firstlineMatch (line : List Char) :
    Option (List Char × List Char × List Char) :=
  matchDateTime line bodyMatch

/-- Timestamps produced by the date parser.  Only construction success or
failure matters to the theorems below. -/
structure DateTime where
  year : Nat
  month : Nat
  day : Nat
  hour : Nat
  minute : Nat
  second : Nat
deriving DecidableEq, Repr

/-- Numeric token: all digits, non-empty. -/
def parseNat? (l : List Char) : Option Nat :=
  if l = [] then none
  else if l.all (·.isDigit) then
    some (l.foldl (fun n c => n * 10 + (c.toNat - 48)) 0)
  else none

/-- Strip a trailing ` AM` / ` PM` from the time text; `some true`
means PM. -/
def stripMeridiem (t : List Char) : List Char × Option Bool :=
  match t.reverse with
  | 'M' :: 'A' :: ' ' :: rest => (rest.reverse, some false)
  | 'M' :: 'P' :: ' ' :: rest => (rest.reverse, some true)
  | _ => (t, none)

/-- Hour validation and 12-hour conversion as `dateutil` performs it. -/
def hourWithMer (h : Nat) : Option Bool → Option Nat
  | none => if h ≤ 23 then some h else none
  | some pm =>
    if h ≤ 12 then
      some (if pm then (if h = 12 then 12 else h + 12)
            else (if h = 12 then 0 else h))
    else none

/-- Two-digit years as `dateutil` widens them around the year 2000. -/
def convertYear (y : Nat) : Nat :=
  if y < 100 then (if y ≤ 68 then 2000 + y else 1900 + y) else y

/-- `dateutil`'s resolution of three numeric date tokens with
`dayfirst=True` (and the default `yearfirst=False`): a token of at least
three digits is the year, otherwise the year is the last token and the
day precedes the month.  Returns `(day, month, year)`. -/
def resolveDMY (a b c : Nat) : Nat × Nat × Nat :=
  if 100 ≤ a then (b, c, a)
  else if 100 ≤ b then (a, c, b)
  else (a, b, convertYear c)

def isLeap (y : Nat) : Bool := (y % 4 = 0 && y % 100 ≠ 0) || y % 400 = 0

def daysInMonth (y m : Nat) : Nat :=
  if m = 2 then (if isLeap y then 29 else 28)
  else if m = 4 || m = 6 || m = 9 || m = 11 then 30
  else 31

/-- Split a date text on the `/`, `-` and `.` separators of `DATE_RE`. -/
def splitDate (l : List Char) : List (List Char) :=
  (splitOnChar '/' l).flatMap (fun p => (splitOnChar '-' p).flatMap (splitOnChar '.'))

/-- Modelled from `dateutil.parser.parse("%s %s" % (date, time),
dayfirst=True)` (an external library, called at lines 59 and 67): split
the date on its separators into exactly three numeric tokens, resolve
them day-first, split the time on `:` into an hour and optional minute
and second tokens, honour a trailing ` AM`/` PM`, and validate all
calendar and clock ranges; `none` models the `ValueError` the library
raises when the text does not denote a valid instant.  (`dateutil`
substitutes the current date for missing components; those inputs are
modelled as failures and are not relied on by any theorem.) -/
def dateutilParse (date time : List Char) : Option DateTime := do
  let comps := splitDate date
  let (a, b, c) ← match comps with
    | [x, y, z] => do
      let a ← parseNat? x
      let b ← parseNat? y
      let c ← parseNat? z
      pure (a, b, c)
    | _ => none
  let (day, month, year) := resolveDMY a b c
  if month < 1 || 12 < month then none
  else if day < 1 || daysInMonth year month < day then none
  else
    let (core, mer) := stripMeridiem time
    let (h, m, s) ← match splitOnChar ':' core with
      | [x] => do pure (← parseNat? x, 0, 0)
      | [x, y] => do pure (← parseNat? x, ← parseNat? y, 0)
      | [x, y, z] => do pure (← parseNat? x, ← parseNat? y, ← parseNat? z)
      | _ => none
    let hour ← hourWithMer h mer
    if m ≤ 59 && s ≤ 59 then
      some ⟨year, month, day, hour, m, s⟩
    else none

/-- The `ValueError` raised by `dateutil` on unparseable date/time text,
propagating out of `ParseLine`. -/
structure ValueError where
deriving DecidableEq, Repr

/-- A parsed message: the `(msg_date, msg_user, msg_body)` triple of the
source. -/
structure RawMsg where
  date : DateTime
  sender : List Char
  body : List Char
deriving DecidableEq, Repr

/-- `ParseLine` (lines 53-70): try `WHATSAPP_RE`, then `FIRSTLINE_RE`
(sender `"nobody"`); on a match, normalize the body's attachments and
parse the date — which can raise.  `.ok none` is "no match". -/
def ParseLine (line : List Char) : Except ValueError (Option RawMsg) :=
  match whatsappMatch line with
  | some (date, time, name, body) =>
    match dateutilParse date time with
    | some d => .ok (some ⟨d, name, replace_attachment body⟩)
    | none => .error ⟨⟩
  | none =>
    match firstlineMatch line with
    | some (date, time, body) =>
      match dateutilParse date time with
      | some d => .ok (some ⟨d, "nobody".toList, replace_attachment body⟩)
      | none => .error ⟨⟩
    | none => .ok none

instance {ε α : Type} [DecidableEq ε] [DecidableEq α] : DecidableEq (Except ε α) :=
  fun x y =>
    match x, y with
    | .ok a, .ok b =>
      if h : a = b then isTrue (by rw [h]) else isFalse (fun h2 => h (Except.ok.inj h2))
    | .error a, .error b =>
      if h : a = b then isTrue (by rw [h]) else isFalse (fun h2 => h (Except.error.inj h2))
    | .ok _, .error _ => isFalse (fun h => Except.noConfusion h)
    | .error _, .ok _ => isFalse (fun h => Except.noConfusion h)

/-! ## The regex source strings (module constants, lines 16-29) -/

def DATE_RE : List Char := "(?P<date>[\\d/\\-.]+)".toList

def TIME_RE : List Char := "(?P<time>[\\d:]+( [AP]M)?)".toList

def DATETIME_RE : List Char :=
  "\\[?".toList ++ DATE_RE ++ ",? ".toList ++ TIME_RE ++ "\\]?".toList

def SEPARATOR_RE : List Char := "( - |: | )".toList

def NAME_RE : List Char := "(?P<name>[^:]+?)".toList

def WHATSAPP_RE : List Char :=
  DATETIME_RE ++ SEPARATOR_RE ++ NAME_RE ++ ": ".toList ++ "(?P<body>.*$)".toList

def FIRSTLINE_RE : List Char :=
  DATETIME_RE ++ SEPARATOR_RE ++ "(?P<body>.*$)".toList

/-! ## Message reassembly (`IdentifyMessages`, lines 73-100) -/

/-- The `Error` raised at lines 93-95, modelled by the three dynamic
components interpolated into its message: `"Can't parse the first line: "
+ repr(line) + ", regexes are FIRSTLINE_RE=" + repr(FIRSTLINE_RE) + " and
WHATSAPP_RE=" + repr(WHATSAPP_RE)`. -/
structure FormatError where
  offending : List Char
  firstline_re : List Char
  whatsapp_re : List Char
deriving DecidableEq, Repr

/-- Errors escaping `IdentifyMessages`: the `Error` it raises itself, or
the `ValueError` propagating out of `ParseLine`. -/
inductive RunError where
  | format : FormatError → RunError
  | value : RunError
deriving DecidableEq, Repr

/-- The loop of `IdentifyMessages`: `cur` is the message in progress
(`none` exactly while `msg_date is None`). -/
def identifyGo : List (List Char) → List RawMsg → Option RawMsg →
    Except RunError (List RawMsg)
  | [], msgs, cur => .ok (msgs ++ cur.toList)
  | line :: rest, msgs, cur =>
    match ParseLine line with
    | .error _ => .error .value
    | .ok (some m) =>
      match cur with
      | some c => identifyGo rest (msgs ++ [c]) (some m)
      | none => identifyGo rest msgs (some m)
    | .ok none =>
      match cur with
      | none => .error (.format ⟨line, FIRSTLINE_RE, WHATSAPP_RE⟩)
      | some c => identifyGo rest msgs (some { c with body := c.body ++ '\n' :: pyStrip line })

/-- `IdentifyMessages` (lines 73-100). -/
def IdentifyMessages (lines : List (List Char)) : Except RunError (List RawMsg) :=
  identifyGo lines [] none

/-- `true` iff `ParseLine` matches the line (returns a message). -/
def lineMatched (line : List Char) : Bool :=
  match ParseLine line with
  | .ok (some _) => true
  | _ => false

/-! ## Grouping (`TemplateData`, lines 103-118) -/

/-- Inner loop of `itertools.groupby`: `u` is the current key, `run` the
current group accumulated in reverse. -/
def grAux (u : List Char) (run : List RawMsg) :
    List RawMsg → List (List Char × List RawMsg)
  | [] => [(u, run.reverse)]
  | m :: rest =>
    if m.sender = u then grAux u (m :: run) rest
    else (u, run.reverse) :: grAux m.sender [m] rest

/-- `itertools.groupby(messages, lambda x: x[1])` with each group
materialized by `list(...)`: maximal runs of consecutive messages with
the same sender. -/
def groupRuns : List RawMsg → List (List Char × List RawMsg)
  | [] => []
  | m :: rest => grAux m.sender [m] rest

/-- Python `dict` lookup on the insertion-ordered association list that
models `user_idx`. -/
def lookupIdx (u : List Char) : List (List Char × Nat) → Option Nat
  | [] => none
  | (v, i) :: rest => if v = u then some i else lookupIdx u rest

/-- The `user_idx` accumulation of `TemplateData`'s loop (lines 112-115):
each not-yet-seen group key is appended with the next index, starting
from 1. -/
def buildIdx : List (List Char × List RawMsg) → List (List Char × Nat) → Nat →
    List (List Char × Nat)
  | [], acc, _ => acc
  | (u, _) :: rest, acc, i =>
    if (lookupIdx u acc).isSome then buildIdx rest acc i
    else buildIdx rest (acc ++ [(u, i)]) (i + 1)

/-- `os.path.basename` (POSIX): the component after the last `/`. -/
def basename (p : List Char) : List Char := lastOr p (splitOnChar '/' p)

/-- The dictionary `TemplateData` returns (lines 117-118). -/
structure TData where
  by_user : List (List Char × List RawMsg)
  input_basename : List Char
  input_full_path : List Char
  user_idx : List (List Char × Nat)
deriving DecidableEq, Repr

/-- `TemplateData` (lines 103-118).  The source fills `by_user` and
`user_idx` in one pass over the same `groupby` iterator; `by_user`
collects exactly the groups, so the two are split here into the groups
themselves and the index fold over them. -/
def TemplateData (messages : List RawMsg) (input_filename : List Char) : TData :=
  { by_user := groupRuns messages
    input_basename := basename input_filename
    input_full_path := input_filename
    user_idx := buildIdx (groupRuns messages) [] 1 }

/-- Fuelled decimal digits of a natural number (jinja renders
`user_idx[user]` with `str`). -/
def natDigitsAux : Nat → Nat → List Char
  | 0, _ => []
  | fuel + 1, n =>
    if n < 10 then [Char.ofNat (48 + n)]
    else natDigitsAux fuel (n / 10) ++ [Char.ofNat (48 + n % 10)]

def natDigits (n : Nat) : List Char := natDigitsAux (n + 1) n

/-- The style classes the `FormatHTML` template's CSS actually defines
(lines 165-217): `.u1 .u2 .u3 .u5 .u6 .u7` — six variants, with no
`.u4`. -/
def paletteClasses : List (List Char) :=
  [['u', '1'], ['u', '2'], ['u', '3'], ['u', '5'], ['u', '6'], ['u', '7']]

/-- The per-run style class attribute rendered by `FormatHTML`'s template
(line 233): `class="chatbox u{{ user_idx[user] }}"` — the raw sender
index, one class per `by_user` run.  (The default 0 is never reached:
every run key is a key of `user_idx`.) -/
def chatboxClasses (d : TData) : List (List Char) :=
  d.by_user.map (fun p => 'u' :: natDigits ((lookupIdx p.1 d.user_idx).getD 0))

/-- First-occurrence deduplication avoiding an already-seen set: the
distinct senders in first-appearance order. -/
def dedupAvoid : List (List Char) → List (List Char) → List (List Char)
  | _, [] => []
  | seen, u :: rest =>
    if u ∈ seen then dedupAvoid seen rest else u :: dedupAvoid (u :: seen) rest

/-- Pair each element with its position counting from `i`. -/
def enumFrom (i : Nat) : List (List Char) → List (List Char × Nat)
  | [] => []
  | u :: rest => (u, i) :: enumFrom (i + 1) rest

/-- A well-formed filename for a marker: non-empty, and free of the
characters that would let it interfere with marker matching. -/
def cleanFn (fn : List Char) : Prop :=
  fn ≠ [] ∧ ∀ c ∈ fn, c ≠ '<' ∧ c ≠ '>' ∧ c ≠ '\n'

instance (fn : List Char) : Decidable (cleanFn fn) :=
  inferInstanceAs (Decidable (_ ∧ _))

/-! ## Reassembler lemmas and claims C1-C4 -/

/-- Once a message is in progress, the loop can no longer raise the
format error (only the date parser's `ValueError`). -/
theorem identifyGo_some_no_format (lines : List (List Char)) :
    ∀ (acc : List RawMsg) (c : RawMsg) (e : FormatError),
      identifyGo lines acc (some c) ≠ .error (.format e) := by
  induction lines with
  | nil => intro acc c e h; simp [identifyGo] at h
  | cons l rest ih =>
    intro acc c e h
    rcases hp : ParseLine l with v | mo
    · simp [identifyGo, hp] at h
    · rcases mo with _ | m
      · simp only [identifyGo, hp] at h
        exact ih acc _ e h
      · simp only [identifyGo, hp] at h
        exact ih (acc ++ [c]) m e h

/-- Claim C1: `IdentifyMessages` yields the format error iff the first
line of a non-empty input is unmatched by `ParseLine` (a raising first
line yields a `ValueError` instead, and a matched first line rules the
format error out for the whole run); on the empty input it returns the
empty message list; and the error carries the offending line together
with both pattern strings. -/
theorem c1_format_error_iff (lines : List (List Char)) :
    IdentifyMessages [] = .ok ([] : List RawMsg) ∧
    ((∃ e, IdentifyMessages lines = .error (.format e)) ↔
      ∃ l rest, lines = l :: rest ∧ ParseLine l = .ok none) ∧
    (∀ e, IdentifyMessages lines = .error (.format e) →
      ∃ l rest, lines = l :: rest ∧ ParseLine l = .ok none ∧
        e = ⟨l, FIRSTLINE_RE, WHATSAPP_RE⟩) := by
  refine ⟨rfl, ?_, ?_⟩
  · constructor
    · rintro ⟨e, he⟩
      cases lines with
      | nil => simp [IdentifyMessages, identifyGo] at he
      | cons l rest =>
        refine ⟨l, rest, rfl, ?_⟩
        rcases hp : ParseLine l with v | mo
        · simp [IdentifyMessages, identifyGo, hp] at he
        · rcases mo with _ | m
          · rfl
          · simp only [IdentifyMessages, identifyGo, hp] at he
            exact absurd he (identifyGo_some_no_format rest [] m e)
    · rintro ⟨l, rest, rfl, hp⟩
      exact ⟨⟨l, FIRSTLINE_RE, WHATSAPP_RE⟩, by simp [IdentifyMessages, identifyGo, hp]⟩
  · intro e he
    cases lines with
    | nil => simp [IdentifyMessages, identifyGo] at he
    | cons l rest =>
      rcases hp : ParseLine l with v | mo
      · simp [IdentifyMessages, identifyGo, hp] at he
      · rcases mo with _ | m
        · refine ⟨l, rest, rfl, hp, ?_⟩
          simp [IdentifyMessages, identifyGo, hp] at he
          exact he.symm
        · simp only [IdentifyMessages, identifyGo, hp] at he
          exact absurd he (identifyGo_some_no_format rest [] m e)

/-- Claim C1 witness: a concrete unparseable first line produces the
format error. -/
theorem c1_witness :
    ∃ e, IdentifyMessages ["random unparseable text".toList] = .error (.format e) :=
  (c1_format_error_iff ["random unparseable text".toList]).2.1.mpr
    ⟨"random unparseable text".toList, [], rfl, by decide⟩

/-- Loop invariant for the message count: on success, the output length
is the accumulator plus the in-progress message plus one message per
remaining matched line. -/
theorem identifyGo_length (lines : List (List Char)) :
    ∀ (acc : List RawMsg) (cur : Option RawMsg) (msgs : List RawMsg),
      identifyGo lines acc cur = .ok msgs →
      msgs.length = acc.length + (if cur.isSome then 1 else 0) +
        lines.countP lineMatched := by
  induction lines with
  | nil =>
    intro acc cur msgs h
    simp only [identifyGo, Except.ok.injEq] at h
    subst h
    cases cur <;> simp
  | cons l rest ih =>
    intro acc cur msgs h
    rcases hp : ParseLine l with v | mo
    · simp [identifyGo, hp] at h
    · rcases mo with _ | m
      · rcases cur with _ | c
        · simp [identifyGo, hp] at h
        · simp only [identifyGo, hp] at h
          have := ih acc _ msgs h
          simp only [List.countP_cons, lineMatched, hp] at this ⊢
          simpa using this
      · rcases cur with _ | c
        · simp only [identifyGo, hp] at h
          have := ih acc (some m) msgs h
          simp only [List.countP_cons, lineMatched, hp] at this ⊢
          simp at this ⊢
          omega
        · simp only [identifyGo, hp] at h
          have := ih (acc ++ [c]) (some m) msgs h
          simp only [List.countP_cons, lineMatched, hp] at this ⊢
          simp at this ⊢
          omega

/-- Claim C2: on every input accepted without error, the reassembler
emits exactly one message per line matched by `ParseLine`; continuation
lines never create messages. -/
theorem c2_message_count (lines : List (List Char)) (msgs : List RawMsg)
    (h : IdentifyMessages lines = .ok msgs) :
    msgs.length = lines.countP lineMatched := by
  simpa using identifyGo_length lines [] none msgs h

/-- Claim C2 witness: two matched lines and one continuation line yield
exactly two messages. -/
theorem c2_witness :
    IdentifyMessages
        ["1/2/20, 10:00 - Alice: Hello".toList, "world".toList,
         "1/2/20, 10:05 - Bob: Hi".toList] =
      .ok [⟨⟨2020, 2, 1, 10, 0, 0⟩, "Alice".toList, "Hello\nworld".toList⟩,
           ⟨⟨2020, 2, 1, 10, 5, 0⟩, "Bob".toList, "Hi".toList⟩] ∧
    ([⟨⟨2020, 2, 1, 10, 0, 0⟩, "Alice".toList, "Hello\nworld".toList⟩,
      ⟨⟨2020, 2, 1, 10, 5, 0⟩, "Bob".toList, "Hi".toList⟩] : List RawMsg).length =
      (["1/2/20, 10:00 - Alice: Hello".toList, "world".toList,
        "1/2/20, 10:05 - Bob: Hi".toList].countP lineMatched) :=
  ⟨by decide, c2_message_count _ _ (by decide)⟩

/-- Processing only continuation lines extends the in-progress message's
body with `'\n'` plus each line stripped on both sides. -/
theorem identifyGo_cont (cont : List (List Char)) :
    ∀ (acc : List RawMsg) (c : RawMsg),
      (∀ x ∈ cont, ParseLine x = .ok none) →
      identifyGo cont acc (some c) =
        .ok (acc ++ [⟨c.date, c.sender,
          cont.foldl (fun b cl => b ++ '\n' :: pyStrip cl) c.body⟩]) := by
  induction cont with
  | nil => intro acc c _; simp [identifyGo]
  | cons l rest ih =>
    intro acc c hall
    have hp := hall l (by simp)
    simp only [identifyGo, hp]
    rw [ih acc _ (fun x hx => hall x (by simp [hx]))]
    simp

/-- Claim C3 counterexample: the code appends `'\n' + line.strip()`, so
the leading whitespace of the continuation line `"  world  "` is NOT
preserved, contrary to the claim's trailing-only trim. -/
theorem c3_counterexample :
    IdentifyMessages ["1/2/20, 10:00 - Alice: hi".toList, "  world  ".toList] =
      .ok [⟨⟨2020, 2, 1, 10, 0, 0⟩, "Alice".toList, "hi\nworld".toList⟩] ∧
    "hi\nworld".toList ≠ "hi".toList ++ '\n' :: trimTrailingWs "  world  ".toList :=
  ⟨by decide, by decide⟩

/-- Claim C3 (amended): for every continuation line, the reassembler
appends a newline followed by the line with BOTH leading and trailing
whitespace removed (Python `strip()`), to the in-progress message's
body. -/
theorem c3_continuation_strip (l : List Char) (m : RawMsg) (cont : List (List Char))
    (h1 : ParseLine l = .ok (some m))
    (h2 : ∀ x ∈ cont, ParseLine x = .ok none) :
    IdentifyMessages (l :: cont) =
      .ok [⟨m.date, m.sender,
        cont.foldl (fun b cl => b ++ '\n' :: pyStrip cl) m.body⟩] := by
  simp only [IdentifyMessages, identifyGo, h1]
  simpa using identifyGo_cont cont [] m h2

/-- Claim C3 witness: a concrete two-continuation message. -/
theorem c3_witness :
    IdentifyMessages ["1/2/20, 10:00 - Alice: hi".toList, "  one ".toList, "two".toList] =
      .ok [⟨⟨2020, 2, 1, 10, 0, 0⟩, "Alice".toList, "hi\none\ntwo".toList⟩] := by
  have := c3_continuation_strip "1/2/20, 10:00 - Alice: hi".toList
    ⟨⟨2020, 2, 1, 10, 0, 0⟩, "Alice".toList, "hi".toList⟩
    ["  one ".toList, "two".toList] (by decide) (by decide)
  simpa using this

/-- Claim C4 counterexample: `ParseLine` raises (a `ValueError` from the
date parser) on a line both regex-matching and calendar-invalid. -/
theorem c4_counterexample :
    ParseLine "99/99/9999, 99:99 - A: hi".toList = .error ⟨⟩ := by decide

/-- Claim C4 (amended): `ParseLine` returns its no-match result exactly
when neither pattern matches; it never raises on such lines.  (On a
matching line it either returns the parsed message or raises the date
parser's `ValueError`.) -/
theorem c4_nomatch_iff (line : List Char) :
    ParseLine line = .ok none ↔
      whatsappMatch line = none ∧ firstlineMatch line = none := by
  constructor
  · intro h
    rcases hw : whatsappMatch line with _ | q
    · rcases hf : firstlineMatch line with _ | q2
      · exact ⟨rfl, rfl⟩
      · rcases q2 with ⟨d, t, b⟩
        rcases hd : dateutilParse d t with _ | v <;>
          simp [ParseLine, hw, hf, hd] at h
    · rcases q with ⟨d, t, n, b⟩
      rcases hd : dateutilParse d t with _ | v <;>
        simp [ParseLine, hw, hd] at h
  · rintro ⟨hw, hf⟩
    simp [ParseLine, hw, hf]

/-- Claim C4 witness: a concrete unmatched line returns no-match. -/
theorem c4_witness : ParseLine "zzz".toList = .ok none :=
  (c4_nomatch_iff "zzz".toList).mpr ⟨by decide, by decide⟩

/-! ## Grouper lemmas and claims C5, C6, C10 -/

theorem grAux_join (rest : List RawMsg) :
    ∀ (u : List Char) (run : List RawMsg),
      ((grAux u run rest).map Prod.snd).flatten = run.reverse ++ rest := by
  induction rest with
  | nil => intro u run; simp [grAux]
  | cons m rest ih =>
    intro u run
    by_cases h : m.sender = u
    · simp [grAux, h, ih]
    · simp [grAux, h, ih]

/-- Claim C5: concatenating the messages of all `by_user` runs, in run
order, reproduces the original message sequence exactly — grouping is a
lossless, order-preserving partition. -/
theorem c5_grouping_lossless (msgs : List RawMsg) (f : List Char) :
    (((TemplateData msgs f).by_user).map Prod.snd).flatten = msgs := by
  cases msgs with
  | nil => rfl
  | cons m rest => simpa [TemplateData, groupRuns] using grAux_join rest m.sender [m]

theorem lookupIdx_isSome (u : List Char) (acc : List (List Char × Nat)) :
    (lookupIdx u acc).isSome ↔ u ∈ acc.map Prod.fst := by
  induction acc with
  | nil => simp [lookupIdx]
  | cons p rest ih =>
    obtain ⟨v, i⟩ := p
    by_cases h : v = u
    · simp [lookupIdx, h]
    · simp only [lookupIdx, if_neg h, List.map_cons, List.mem_cons, ih]
      constructor
      · exact Or.inr
      · rintro (rfl | hx)
        · exact absurd rfl h
        · exact hx

theorem dedupAvoid_congr (l : List (List Char)) :
    ∀ s1 s2, (∀ x, x ∈ s1 ↔ x ∈ s2) → dedupAvoid s1 l = dedupAvoid s2 l := by
  induction l with
  | nil => intro s1 s2 _; rfl
  | cons u rest ih =>
    intro s1 s2 hs
    by_cases h : u ∈ s1
    · simp [dedupAvoid, h, (hs u).mp h, ih _ _ hs]
    · have h2 : u ∉ s2 := fun hx => h ((hs u).mpr hx)
      simp only [dedupAvoid, if_neg h, if_neg h2]
      rw [ih (u :: s1) (u :: s2) (fun x => by simp [hs x])]

theorem dedupAvoid_dup (seen : List (List Char)) (u : List Char) (l : List (List Char)) :
    dedupAvoid seen (u :: u :: l) = dedupAvoid seen (u :: l) := by
  by_cases h : u ∈ seen
  · simp [dedupAvoid, h]
  · simp [dedupAvoid, h]

theorem buildIdx_eq (runs : List (List Char × List RawMsg)) :
    ∀ (acc : List (List Char × Nat)) (i : Nat),
      buildIdx runs acc i =
        acc ++ enumFrom i (dedupAvoid (acc.map Prod.fst) (runs.map Prod.fst)) := by
  induction runs with
  | nil => intro acc i; simp [buildIdx, dedupAvoid, enumFrom]
  | cons p rest ih =>
    obtain ⟨u, ms⟩ := p
    intro acc i
    rcases hl : lookupIdx u acc with _ | j
    · have hm : u ∉ acc.map Prod.fst := by
        intro hx
        have := (lookupIdx_isSome u acc).mpr hx
        simp [hl] at this
      simp only [buildIdx, hl, Option.isSome_none, Bool.false_eq_true, if_false]
      rw [ih]
      simp only [List.map_append, List.map_cons, List.map_nil, List.cons.injEq]
      rw [dedupAvoid_congr (rest.map Prod.fst) (acc.map Prod.fst ++ [u]) (u :: acc.map Prod.fst)
        (fun x => by simp [or_comm])]
      simp [dedupAvoid, hm, enumFrom]
    · have hm : u ∈ acc.map Prod.fst := by
        have : (lookupIdx u acc).isSome := by simp [hl]
        exact (lookupIdx_isSome u acc).mp this
      simp only [buildIdx, hl, Option.isSome_some, if_true]
      rw [ih]
      simp [dedupAvoid, hm]

theorem grAux_keys_dedup (rest : List RawMsg) :
    ∀ (u : List Char) (run : List RawMsg) (seen : List (List Char)),
      dedupAvoid seen ((grAux u run rest).map Prod.fst) =
        dedupAvoid seen (u :: rest.map RawMsg.sender) := by
  induction rest with
  | nil => intro u run seen; simp [grAux]
  | cons m rest ih =>
    intro u run seen
    by_cases h : m.sender = u
    · rw [show (m :: rest).map RawMsg.sender = m.sender :: rest.map RawMsg.sender from rfl,
        h, dedupAvoid_dup]
      simp only [grAux, if_pos h]
      exact ih u (m :: run) seen
    · simp only [grAux, if_neg h, List.map_cons]
      by_cases hs : u ∈ seen
      · simp only [dedupAvoid, if_pos hs]
        exact ih m.sender [m] seen
      · simp only [dedupAvoid, if_neg hs, List.cons.injEq, true_and]
        exact ih m.sender [m] (u :: seen)

theorem groupRuns_keys_dedup (msgs : List RawMsg) :
    dedupAvoid [] ((groupRuns msgs).map Prod.fst) =
      dedupAvoid [] (msgs.map RawMsg.sender) := by
  cases msgs with
  | nil => rfl
  | cons m rest => simpa [groupRuns] using grAux_keys_dedup rest m.sender [m] []

/-- The `user_idx` dictionary is exactly the distinct senders in
first-appearance order, numbered from 1. -/
theorem userIdx_eq (msgs : List RawMsg) (f : List Char) :
    (TemplateData msgs f).user_idx =
      enumFrom 1 (dedupAvoid [] (msgs.map RawMsg.sender)) := by
  show buildIdx (groupRuns msgs) [] 1 = _
  rw [buildIdx_eq]
  simp [groupRuns_keys_dedup]

theorem enumFrom_map_snd (l : List (List Char)) :
    ∀ i : Nat, (enumFrom i l).map Prod.snd = List.range' i l.length := by
  induction l with
  | nil => intro i; rfl
  | cons u rest ih => intro i; simp [enumFrom, List.range'_succ, ih]

/-- Claim C6: `user_idx` maps the Nth distinct sender (in file order) to
index N: it equals the first-appearance-ordered list of distinct senders
numbered consecutively from 1, so the assignment is stable and strictly
increasing in first-appearance order. -/
theorem c6_sender_index (msgs : List RawMsg) (f : List Char) :
    (TemplateData msgs f).user_idx =
      enumFrom 1 (dedupAvoid [] (msgs.map RawMsg.sender)) ∧
    ((TemplateData msgs f).user_idx).map Prod.snd =
      List.range' 1 (dedupAvoid [] (msgs.map RawMsg.sender)).length := by
  refine ⟨userIdx_eq msgs f, ?_⟩
  rw [userIdx_eq]
  exact enumFrom_map_snd _ 1

/-! ## Attachment-normalizer lemmas and claims C7-C9 -/

theorem attStart_cons : attStart = '<' :: "attached: ".toList := by decide

theorem markerOf_cons (fn : List Char) :
    markerOf fn = '<' :: ("attached: ".toList ++ (fn ++ ['>'])) := by
  rw [markerOf, attStart_cons]
  simp

theorem isPre_self_append (a t : List Char) : isPre a (a ++ t) = true := by
  induction a with
  | nil => rfl
  | cons c a ih => simp [isPre, ih]

theorem isPre_head_ne {a b : Char} (as bs : List Char) (h : a ≠ b) :
    isPre (a :: as) (b :: bs) = false := by
  simp [isPre, h]

theorem isPre_append_common (a : List Char) :
    ∀ x y, isPre (a ++ x) (a ++ y) = isPre x y := by
  induction a with
  | nil => intro x y; rfl
  | cons c a ih => intro x y; simp [isPre, ih]

theorem isPre_fn_gt (fn1 : List Char) :
    ∀ (fn2 post : List Char), (∀ c ∈ fn1, c ≠ '>') → (∀ c ∈ fn2, c ≠ '>') →
      fn1 ≠ fn2 → isPre (fn1 ++ ['>']) (fn2 ++ '>' :: post) = false := by
  induction fn1 with
  | nil =>
    intro fn2 post _ h2 hne
    cases fn2 with
    | nil => exact absurd rfl hne
    | cons d f2 =>
      have hd : d ≠ '>' := h2 d (by simp)
      simpa using isPre_head_ne _ _ (Ne.symm hd)
  | cons c f1 ih =>
    intro fn2 post h1 h2 hne
    have hc : c ≠ '>' := h1 c (by simp)
    cases fn2 with
    | nil => simpa using isPre_head_ne _ _ hc
    | cons d f2 =>
      by_cases hcd : c = d
      · subst hcd
        have hne2 : f1 ≠ f2 := fun he => hne (by rw [he])
        simp only [List.cons_append, isPre, List.append_eq]
        rw [ih f2 post (fun x hx => h1 x (by simp [hx]))
          (fun x hx => h2 x (by simp [hx])) hne2]
        simp
      · simpa using isPre_head_ne _ _ hcd

theorem isPre_marker_marker (fn1 fn2 post : List Char)
    (h1 : ∀ c ∈ fn1, c ≠ '>') (h2 : ∀ c ∈ fn2, c ≠ '>') (hne : fn1 ≠ fn2) :
    isPre (markerOf fn1) (markerOf fn2 ++ post) = false := by
  have e1 : markerOf fn1 = attStart ++ (fn1 ++ ['>']) := by simp [markerOf]
  have e2 : markerOf fn2 ++ post = attStart ++ (fn2 ++ '>' :: post) := by
    simp [markerOf]
  rw [e1, e2, isPre_append_common]
  exact isPre_fn_gt fn1 fn2 post h1 h2 hne

theorem findClose_clean (ft : List Char) :
    ∀ post : List Char, (∀ c ∈ ft, c ≠ '>' ∧ c ≠ '\n') →
      findClose (ft ++ '>' :: post) = some (ft, post) := by
  induction ft with
  | nil => intro post _; simp [findClose]
  | cons c rest ih =>
    intro post h
    have hc := h c (by simp)
    simp only [List.cons_append, findClose, if_neg hc.1, if_neg hc.2, List.append_eq]
    rw [ih post (fun x hx => h x (by simp [hx]))]

theorem matchAt_marker (fn post : List Char) (hfn : cleanFn fn) :
    matchAt (markerOf fn ++ post) = some (fn, post) := by
  obtain ⟨hne, hcl⟩ := hfn
  obtain ⟨f0, ft, rfl⟩ : ∃ f0 ft, fn = f0 :: ft := by
    cases fn with
    | nil => exact absurd rfl hne
    | cons a b => exact ⟨a, b, rfl⟩
  have h0 := hcl f0 (by simp)
  have e1 : markerOf (f0 :: ft) ++ post = attStart ++ (f0 :: (ft ++ '>' :: post)) := by
    simp [markerOf]
  rw [e1, matchAt]
  rw [if_pos (isPre_self_append attStart _), List.drop_left]
  simp only [if_neg h0.2.2]
  rw [findClose_clean ft post (fun x hx => ⟨(hcl x (by simp [hx])).2.1, (hcl x (by simp [hx])).2.2⟩)]
  rfl

theorem matchAt_ne_lt (c : Char) (s : List Char) (h : c ≠ '<') :
    matchAt (c :: s) = none := by
  rw [matchAt, attStart_cons]
  rw [isPre_head_ne _ _ (Ne.symm h)]
  rfl

theorem findAttachment_cons (c : Char) (t : List Char) :
    findAttachment (c :: t) =
      match matchAt (c :: t) with
      | some (fn, post) => some ([], fn, post)
      | none => (findAttachment t).map (fun p => (c :: p.1, p.2.1, p.2.2)) := rfl

/-- A `<`-free prefix and a clean filename pin the leftmost marker match. -/
theorem findAttachment_structured (fn : List Char) (hfn : cleanFn fn) :
    ∀ (pre post : List Char), (∀ c ∈ pre, c ≠ '<') →
      findAttachment (pre ++ markerOf fn ++ post) = some (pre, fn, post) := by
  intro pre
  induction pre with
  | nil =>
    intro post _
    have e1 : markerOf fn ++ post = '<' :: ("attached: ".toList ++ (fn ++ ['>']) ++ post) := by
      rw [markerOf_cons]; simp
    rw [List.nil_append, e1, findAttachment, ← e1, matchAt_marker fn post hfn]
  | cons c pre ih =>
    intro post hpre
    have hc : c ≠ '<' := hpre c (by simp)
    have e : (c :: pre) ++ markerOf fn ++ post = c :: (pre ++ markerOf fn ++ post) := by
      simp
    rw [e, findAttachment_cons, matchAt_ne_lt c _ hc,
      ih post (fun x hx => hpre x (by simp [hx]))]
    rfl

theorem findAttachment_isSome_append (fn : List Char) (hfn : cleanFn fn) :
    ∀ (a b : List Char), (findAttachment (a ++ markerOf fn ++ b)).isSome := by
  intro a
  induction a with
  | nil =>
    intro b
    have h := findAttachment_structured fn hfn [] b (by simp)
    simp only [List.nil_append] at h ⊢
    rw [h]
    rfl
  | cons c a ih =>
    intro b
    have e : (c :: a) ++ markerOf fn ++ b = c :: (a ++ markerOf fn ++ b) := by
      simp
    rw [e, findAttachment_cons]
    cases hm : matchAt (c :: (a ++ markerOf fn ++ b)) with
    | some p => obtain ⟨x, y⟩ := p; rfl
    | none => simpa using ih b

theorem pyReplaceAux_no (h : Char) (o' new : List Char) :
    ∀ (fuel : Nat) (s : List Char), (∀ c ∈ s, c ≠ h) →
      pyReplaceAux fuel s (h :: o') new = s := by
  intro fuel
  induction fuel with
  | zero => intro s _; rfl
  | succ f ih =>
    intro s hs
    cases s with
    | nil => rfl
    | cons c rest =>
      have hc : c ≠ h := hs c (by simp)
      have hp : isPre (h :: o') (c :: rest) = false := isPre_head_ne _ _ (Ne.symm hc)
      simp only [pyReplaceAux, hp, Bool.false_eq_true, if_false, List.cons.injEq, true_and]
      exact ih rest (fun x hx => hs x (by simp [hx]))

theorem pyReplaceAux_skip (h : Char) (o' new : List Char) (p : List Char) :
    ∀ (fuel : Nat) (t : List Char), p.length ≤ fuel → (∀ c ∈ p, c ≠ h) →
      pyReplaceAux fuel (p ++ t) (h :: o') new =
        p ++ pyReplaceAux (fuel - p.length) t (h :: o') new := by
  induction p with
  | nil => intro fuel t _ _; simp
  | cons c p ih =>
    intro fuel t hf hp
    obtain ⟨f, rfl⟩ : ∃ f, fuel = f + 1 := ⟨fuel - 1, by simp at hf; omega⟩
    have hc : c ≠ h := hp c (by simp)
    have hpre : isPre (h :: o') (c :: (p ++ t)) = false := isPre_head_ne _ _ (Ne.symm hc)
    simp only [List.cons_append, pyReplaceAux, List.append_eq, hpre, Bool.false_eq_true,
      if_false]
    rw [ih f t (by simp at hf; omega) (fun x hx => hp x (by simp [hx]))]
    simp [Nat.succ_sub_succ]

theorem pyReplaceAux_hit (o : Char) (o' t new : List Char) (f : Nat) :
    pyReplaceAux (f + 1) ((o :: o') ++ t) (o :: o') new =
      new ++ pyReplaceAux f t (o :: o') new := by
  have hp : isPre (o :: o') ((o :: o') ++ t) = true := isPre_self_append _ _
  simp only [List.cons_append] at hp ⊢
  simp only [pyReplaceAux, hp, if_true]
  rw [show (o :: (o' ++ t)).drop (o :: o').length = t from by
    simp [List.drop_left]]

theorem pyReplaceAux_nomatch (o : Char) (o' new : List Char) :
    ∀ (fuel : Nat) (s : List Char),
      (∀ t, t <:+ s → isPre (o :: o') t = false) →
      pyReplaceAux fuel s (o :: o') new = s := by
  intro fuel
  induction fuel with
  | zero => intro s _; rfl
  | succ f ih =>
    intro s hs
    cases s with
    | nil => rfl
    | cons c rest =>
      have h1 := hs (c :: rest) (List.suffix_refl _)
      simp only [pyReplaceAux, h1, Bool.false_eq_true, if_false, List.cons.injEq, true_and]
      exact ih rest (fun t ht => hs t (ht.trans (List.suffix_cons c rest)))

theorem suffix_cons_lt (T t : List Char) (hT : ∀ c ∈ T, c ≠ '<')
    (h : t <:+ ('<' :: T)) :
    t = '<' :: T ∨ t = [] ∨ ∃ c t', t = c :: t' ∧ c ≠ '<' := by
  obtain ⟨u, hu⟩ := h
  cases u with
  | nil => left; simpa using hu
  | cons x u' =>
    cases t with
    | nil => right; left; rfl
    | cons c t' =>
      right; right
      refine ⟨c, t', rfl, ?_⟩
      intro hce
      subst hce
      have : (u' ++ '<' :: t') = T := by
        have := hu
        simp only [List.cons_append, List.cons.injEq] at this
        exact this.2
      have hmem : '<' ∈ T := by
        rw [← this]
        simp
      exact hT '<' hmem rfl

theorem pyReplaceAux_marker2 (fn1 fn2 new : List Char)
    (h1 : cleanFn fn1) (h2 : cleanFn fn2) (hne : fn1 ≠ fn2) :
    ∀ f : Nat, pyReplaceAux f (markerOf fn2) (markerOf fn1) new = markerOf fn2 := by
  intro f
  rw [markerOf_cons fn1]
  have hT2 : ∀ c ∈ ("attached: ".toList ++ (fn2 ++ ['>'])), c ≠ '<' := by
    intro c hc
    have hA : ∀ x ∈ "attached: ".toList, x ≠ '<' := by decide
    rcases List.mem_append.mp hc with hx | hx
    · exact hA c hx
    · rcases List.mem_append.mp hx with hy | hy
      · exact (h2.2 c hy).1
      · simp at hy; subst hy; decide
  apply pyReplaceAux_nomatch
  intro t ht
  rw [← markerOf_cons fn1]
  rw [markerOf_cons fn2] at ht
  rcases suffix_cons_lt _ t hT2 ht with he | he | ⟨c, t', rfl, hc⟩
  · subst he
    rw [← markerOf_cons fn2]
    have := isPre_marker_marker fn1 fn2 []
      (fun c hc => (h1.2 c hc).2.1) (fun c hc => (h2.2 c hc).2.1) hne
    simpa using this
  · subst he
    rw [markerOf_cons fn1]
    rfl
  · rw [markerOf_cons fn1]
    exact isPre_head_ne _ _ (Ne.symm hc)

/-- A single marker occurrence after a `<`-free prefix: `str.replace`
keeps the prefix, substitutes the marker, and continues on the rest. -/
theorem pyReplace_structured (pre fn rest new : List Char)
    (hpre : ∀ c ∈ pre, c ≠ '<') :
    pyReplace (pre ++ markerOf fn ++ rest) (markerOf fn) new =
      pre ++ new ++
        pyReplaceAux ((markerOf fn).length + rest.length) rest (markerOf fn) new := by
  obtain ⟨mt, hm⟩ : ∃ mt, markerOf fn = '<' :: mt := ⟨_, markerOf_cons fn⟩
  rw [pyReplace, List.append_assoc, hm]
  rw [pyReplaceAux_skip '<' mt new pre _ _
    (by simp only [List.length_append, List.length_cons]; omega) hpre]
  have hf : (pre ++ (('<' :: mt) ++ rest)).length + 1 - pre.length =
      (('<' :: mt).length + rest.length) + 1 := by
    simp
    omega
  rw [hf, pyReplaceAux_hit '<' mt rest new _, ← hm, List.append_assoc]

/-- Claim C9: for a body carrying exactly one (well-formed) attachment
marker, `replace_attachment` substitutes the extension-dispatched HTML
for the marker and leaves the rest of the body unchanged.
(`attachmentHtml` is the source's dispatch: anchor-wrapped 128x128 img
for jpg/png/jpeg, audio for opus, video for mp4, plain link otherwise,
selected on the text after the last `.` of the filename,
case-sensitively.) -/
theorem c9_extension_dispatch (pre fn post : List Char)
    (hpre : ∀ c ∈ pre, c ≠ '<') (hfn : cleanFn fn)
    (hpost : ∀ c ∈ post, c ≠ '<') :
    replace_attachment (pre ++ markerOf fn ++ post) =
      pre ++ attachmentHtml fn ++ post := by
  rw [replace_attachment, findAttachment_structured fn hfn pre post hpre]
  show pyReplace (pre ++ markerOf fn ++ post) (markerOf fn) (attachmentHtml fn) =
    pre ++ attachmentHtml fn ++ post
  rw [pyReplace_structured pre fn post (attachmentHtml fn) hpre]
  obtain ⟨mt, hm⟩ : ∃ mt, markerOf fn = '<' :: mt := ⟨_, markerOf_cons fn⟩
  rw [hm, pyReplaceAux_no '<' mt (attachmentHtml fn) _ post hpost]

/-- Claim C9 witness: a concrete jpg marker in a concrete body. -/
theorem c9_witness :
    replace_attachment ("see ".toList ++ markerOf "photo.jpg".toList ++ " now".toList) =
      "see ".toList ++ attachmentHtml "photo.jpg".toList ++ " now".toList :=
  c9_extension_dispatch _ _ _ (by decide) (by decide) (by decide)

/-- Claim C7 counterexample: with two markers of distinct filenames, the
output of `replace_attachment` still contains an attachment marker — the
search only ever finds the first marker. -/
theorem c7_counterexample :
    (findAttachment
      (replace_attachment "<attached: a.jpg> and <attached: b.png>".toList)).isSome := by
  decide

/-- Claim C7 (amended): `replace_attachment` replaces every occurrence of
the FIRST marker found (Python `str.replace` replaces all occurrences of
that one string); a second marker with a distinct filename is left in
place, so the output can still contain an attachment marker. -/
theorem c7_first_marker_only (pre fn1 fn2 : List Char)
    (hpre : ∀ c ∈ pre, c ≠ '<') (h1 : cleanFn fn1) (h2 : cleanFn fn2)
    (hne : fn1 ≠ fn2) :
    replace_attachment (pre ++ markerOf fn1 ++ markerOf fn2) =
      pre ++ attachmentHtml fn1 ++ markerOf fn2 ∧
    (findAttachment (pre ++ attachmentHtml fn1 ++ markerOf fn2)).isSome := by
  constructor
  · rw [replace_attachment, findAttachment_structured fn1 h1 pre (markerOf fn2) hpre]
    show pyReplace (pre ++ markerOf fn1 ++ markerOf fn2) (markerOf fn1) (attachmentHtml fn1) =
      pre ++ attachmentHtml fn1 ++ markerOf fn2
    rw [pyReplace_structured pre fn1 (markerOf fn2) (attachmentHtml fn1) hpre]
    rw [pyReplaceAux_marker2 fn1 fn2 (attachmentHtml fn1) h1 h2 hne _]
  · have h := findAttachment_isSome_append fn2 h2 (pre ++ attachmentHtml fn1) []
    simpa using h

/-- Claim C7 witness: concrete distinct filenames. -/
theorem c7_witness :
    replace_attachment ("x ".toList ++ markerOf "a.jpg".toList ++ markerOf "b.png".toList) =
      "x ".toList ++ attachmentHtml "a.jpg".toList ++ markerOf "b.png".toList ∧
    (findAttachment ("x ".toList ++ attachmentHtml "a.jpg".toList ++ markerOf "b.png".toList)).isSome :=
  c7_first_marker_only "x ".toList "a.jpg".toList "b.png".toList
    (by decide) (by decide) (by decide) (by decide)

/-- Claim C8 counterexample: `replace_attachment` is NOT idempotent on
every string — with two markers of distinct filenames a second
application replaces the second marker. -/
theorem c8_counterexample :
    replace_attachment (replace_attachment "<attached: a.jpg><attached: b.opus>".toList) ≠
      replace_attachment "<attached: a.jpg><attached: b.opus>".toList := by
  decide

/-- Claim C8 (amended): on every string containing no attachment marker,
`replace_attachment` returns its input unchanged, and is therefore
idempotent on such strings. -/
theorem c8_idempotent_no_marker (s : List Char) (h : findAttachment s = none) :
    replace_attachment s = s ∧
    replace_attachment (replace_attachment s) = replace_attachment s := by
  have h1 : replace_attachment s = s := by
    rw [replace_attachment, h]
  exact ⟨h1, by rw [h1, h1]⟩

/-- Claim C8 witness: a concrete marker-free string. -/
theorem c8_witness :
    replace_attachment "no markers here".toList = "no markers here".toList ∧
    replace_attachment (replace_attachment "no markers here".toList) =
      replace_attachment "no markers here".toList :=
  c8_idempotent_no_marker "no markers here".toList (by decide)

/-! ## Renderer lemmas and claim C10 -/

theorem natDigitsAux_ne_nil (fuel n : Nat) : natDigitsAux (fuel + 1) n ≠ [] := by
  by_cases h : n < 10
  · simp [natDigitsAux, h]
  · simp [natDigitsAux, h]

theorem natDigits_two_le (n : Nat) (h : 10 ≤ n) : 2 ≤ (natDigits n).length := by
  rw [natDigits]
  obtain ⟨k, rfl⟩ : ∃ k, n = k + 1 := ⟨n - 1, by omega⟩
  rw [show natDigitsAux (k + 1 + 1) (k + 1) =
      natDigitsAux (k + 1) ((k + 1) / 10) ++ [Char.ofNat (48 + (k + 1) % 10)] from by
    simp [natDigitsAux, Nat.not_lt.mpr h]]
  have h1 : natDigitsAux (k + 1) ((k + 1) / 10) ≠ [] := natDigitsAux_ne_nil k _
  have h2 : 0 < (natDigitsAux (k + 1) ((k + 1) / 10)).length := List.length_pos.mpr h1
  simp only [List.length_append, List.length_cons, List.length_nil]
  omega

theorem mem_dedupAvoid (l : List (List Char)) :
    ∀ (seen : List (List Char)) (x : List Char),
      x ∈ dedupAvoid seen l ↔ x ∈ l ∧ x ∉ seen := by
  induction l with
  | nil => intro seen x; simp [dedupAvoid]
  | cons u rest ih =>
    intro seen x
    by_cases h : u ∈ seen
    · simp only [dedupAvoid, if_pos h, ih seen x, List.mem_cons]
      constructor
      · rintro ⟨hx, hn⟩; exact ⟨Or.inr hx, hn⟩
      · rintro ⟨hx | hx, hn⟩
        · subst hx; exact absurd h hn
        · exact ⟨hx, hn⟩
    · simp only [dedupAvoid, if_neg h, List.mem_cons, ih (u :: seen) x]
      constructor
      · rintro (rfl | ⟨hx, hn⟩)
        · exact ⟨Or.inl rfl, h⟩
        · refine ⟨Or.inr hx, fun hs => hn (by simp [hs])⟩
      · rintro ⟨hx | hx, hn⟩
        · subst hx; exact Or.inl rfl
        · by_cases hxu : x = u
          · exact Or.inl hxu
          · refine Or.inr ⟨hx, ?_⟩
            simp [hxu, hn]

theorem lookupIdx_enumFrom (l : List (List Char)) :
    ∀ (i : Nat) (u : List Char), u ∈ l →
      ∃ n, lookupIdx u (enumFrom i l) = some n ∧ i ≤ n := by
  induction l with
  | nil => intro i u hu; simp at hu
  | cons v rest ih =>
    intro i u hu
    by_cases h : v = u
    · exact ⟨i, by simp [enumFrom, lookupIdx, h], Nat.le_refl i⟩
    · have hu2 : u ∈ rest := by
        rcases List.mem_cons.mp hu with he | he
        · exact absurd he.symm h
        · exact he
      obtain ⟨n, hn, hi⟩ := ih (i + 1) u hu2
      exact ⟨n, by simp [enumFrom, lookupIdx, h, hn], by omega⟩

/-- Claim C10 counterexample: with four distinct senders the fourth run
is rendered with class `u4`, which is NOT one of the six style classes
the template's CSS defines (the palette has no `.u4` and the index is
used raw, without any modulo). -/
theorem c10_counterexample :
    ['u', '4'] ∈ chatboxClasses (TemplateData
      [⟨⟨2020, 1, 1, 0, 0, 0⟩, "A".toList, "a".toList⟩,
       ⟨⟨2020, 1, 1, 0, 0, 0⟩, "B".toList, "b".toList⟩,
       ⟨⟨2020, 1, 1, 0, 0, 0⟩, "C".toList, "c".toList⟩,
       ⟨⟨2020, 1, 1, 0, 0, 0⟩, "D".toList, "d".toList⟩] "chat.txt".toList) ∧
    ['u', '4'] ∉ paletteClasses :=
  ⟨by decide, by decide⟩

/-- Claim C10 (amended): each run's chatbox class is `u` followed by the
sender's raw index (no modulo is applied), and such a class is one of
the palette's six defined variants exactly when the index is
1, 2, 3, 5, 6 or 7 — so index 4, and every index past 7, yields an
undefined style class. -/
theorem c10_class_assignment (msgs : List RawMsg) (f : List Char) :
    (∀ cls ∈ chatboxClasses (TemplateData msgs f),
      ∃ u n, lookupIdx u ((TemplateData msgs f).user_idx) = some n ∧ 1 ≤ n ∧
        cls = 'u' :: natDigits n) ∧
    (∀ n : Nat, ('u' :: natDigits n) ∈ paletteClasses ↔
      (n = 1 ∨ n = 2 ∨ n = 3 ∨ n = 5 ∨ n = 6 ∨ n = 7)) := by
  constructor
  · intro cls hcls
    simp only [chatboxClasses] at hcls
    obtain ⟨p, hp, rfl⟩ := List.mem_map.mp hcls
    have hk : p.1 ∈ (groupRuns msgs).map Prod.fst := List.mem_map_of_mem _ hp
    have hd : p.1 ∈ dedupAvoid [] ((groupRuns msgs).map Prod.fst) :=
      (mem_dedupAvoid _ [] p.1).mpr ⟨hk, by simp⟩
    rw [groupRuns_keys_dedup] at hd
    obtain ⟨n, hn, h1⟩ := lookupIdx_enumFrom _ 1 p.1 hd
    refine ⟨p.1, n, ?_, h1, ?_⟩
    · rw [userIdx_eq msgs f]; exact hn
    · rw [userIdx_eq msgs f, hn]
      rfl
  · intro n
    by_cases h : n < 10
    · interval_cases n <;> decide
    · have h10 : 10 ≤ n := Nat.le_of_not_lt h
      have hlen := natDigits_two_le n h10
      constructor
      · intro hmem
        exfalso
        simp only [paletteClasses, List.mem_cons, List.not_mem_nil, or_false] at hmem
        rcases hmem with h1 | h1 | h1 | h1 | h1 | h1 <;>
          { have h2 := congrArg List.length h1
            simp only [List.length_cons, List.length_nil] at h2
            omega }
      · intro hn
        exfalso
        rcases hn with rfl | rfl | rfl | rfl | rfl | rfl <;> omega

/-- Claim C10 witness: a single-sender input gets class `u1` backed by
index 1 in `user_idx`. -/
theorem c10_witness :
    ∃ u n,
      lookupIdx u ((TemplateData [⟨⟨2020, 1, 1, 0, 0, 0⟩, "A".toList, "a".toList⟩]
        "f".toList).user_idx) = some n ∧ 1 ≤ n ∧ ['u', '1'] = 'u' :: natDigits n :=
  (c10_class_assignment [⟨⟨2020, 1, 1, 0, 0, 0⟩, "A".toList, "a".toList⟩]
    "f".toList).1 ['u', '1'] (by decide)
